import Mathlib

/-!
Verification of the IRL route-sequencing training script (`train_irl_nn.py`).

The script's pure computational kernels are embedded over `ℚ`:
matrices become functions `ℕ → ℕ → ℚ`, sequences become `List ℕ`,
time-window constraints become `ℕ → ℚ × ℚ` (position ↦ (lower, upper)).
External collaborators (the constrained-TSP solver, the scorer) are opaque
function parameters, as the spec treats them as black boxes.
-/

/-- Consecutive pairs `(seq[i-1], seq[i])` of a sequence, as walked by the
loops `for idx in range(1, len(seq))` of the source. -/
def consecPairs : List ℕ → List (ℕ × ℕ)
  | [] => []
  | [_] => []
  | a :: b :: rest => (a, b) :: consecPairs (b :: rest)

/-- Last element of a stop sequence, i.e. `seq[-1]` of the source
(defaulting to `0` on the empty list, which the source never passes). -/
def lastStop : List ℕ → ℕ
  | [] => 0
  | [a] => a
  | _ :: b :: rest => lastStop (b :: rest)

/-- All `N` directed edges of the cyclic tour: the `N-1` consecutive pairs
plus the closing edge `(seq[-1], seq[0])`. -/
def cycleEdges : List ℕ → List (ℕ × ℕ)
  | [] => []
  | a :: rest => consecPairs (a :: rest) ++ [(lastStop (a :: rest), a)]

/-- Sum of an edge-weight function over a list of directed edges. -/
def edgeSum (w : ℕ → ℕ → ℚ) (es : List (ℕ × ℕ)) : ℚ :=
  (es.map (fun p => w p.1 p.2)).sum

/-- Embedding of the loop body state of `compute_link_cost_seq`: the running
`(time_cost, feature_cost)` pair is updated with one directed edge. -/
def lcStep (time_matrix : ℕ → ℕ → ℚ) (link_features : ℕ → ℕ → ℕ → ℚ) (nf : ℕ)
    (acc : ℚ × List ℚ) (p : ℕ × ℕ) : ℚ × List ℚ :=
  (acc.1 + time_matrix p.1 p.2,
   (List.range nf).map (fun f => acc.2.getD f 0 + link_features f p.1 p.2))

/-- Embedding of `compute_link_cost_seq` (src/train_irl_nn.py:29-37): starting
from `time_cost = 0` and `feature_cost = zeros(nf)`, fold the update over the
`N-1` consecutive pairs and then the closing edge `(seq[-1], seq[0])`. -/
def compute_link_cost_seq (time_matrix : ℕ → ℕ → ℚ)
    (link_features : ℕ → ℕ → ℕ → ℚ) (nf : ℕ) (seq : List ℕ) : ℚ × List ℚ :=
  (cycleEdges seq).foldl (lcStep time_matrix link_features nf)
    (0, List.replicate nf 0)

/-- Loop of `compute_time_violation_seq` (src/train_irl_nn.py:40-47): walk the
consecutive pairs carrying `(idx, time, violation_up, violation_down)`;
at each step add the travel time, then accumulate the late penalty
`max 0 (time - upper)` and the early penalty `max 0 (lower - time)`. -/
def tvAux (time_matrix : ℕ → ℕ → ℚ) (time_constraints : ℕ → ℚ × ℚ) :
    List ℕ → ℕ → ℚ → ℚ → ℚ → ℚ
  | [], _, _, vu, vd => vu + vd
  | [_], _, _, vu, vd => vu + vd
  | a :: b :: rest, idx, t, vu, vd =>
      tvAux time_matrix time_constraints (b :: rest) (idx + 1) (t + time_matrix a b)
        (vu + max 0 ((t + time_matrix a b) - (time_constraints idx).2))
        (vd + max 0 ((time_constraints idx).1 - (t + time_matrix a b)))

/-- Embedding of `compute_time_violation_seq` (src/train_irl_nn.py:40-47):
the loop starts at `idx = 1` with `time = 0` and both running totals `0`,
and returns `violation_up + violation_down`. -/
def compute_time_violation_seq (time_matrix : ℕ → ℕ → ℚ)
    (time_constraints : ℕ → ℚ × ℚ) (seq : List ℕ) : ℚ :=
  tvAux time_matrix time_constraints seq 1 0 0 0

/-- Cumulative elapsed travel time after the first `i` legs of the walk:
the value of the loop variable `time` when position `i` of the sequence is
reached. -/
def elapsed (time_matrix : ℕ → ℕ → ℚ) : List ℕ → ℕ → ℚ
  | _, 0 => 0
  | [], _ + 1 => 0
  | [_], _ + 1 => 0
  | a :: b :: rest, m + 1 => time_matrix a b + elapsed time_matrix (b :: rest) m

/-- Combined early/late time-window penalty for one position: given the
window `c = (lower, upper)` and the elapsed time `t`, the contribution
`max 0 (t - upper) + max 0 (lower - t)`. -/
def winPen (c : ℚ × ℚ) (t : ℚ) : ℚ :=
  max 0 (t - c.2) + max 0 (c.1 - t)

theorem winPen_nonneg (c : ℚ × ℚ) (t : ℚ) : 0 ≤ winPen c t := by
  have h1 : (0 : ℚ) ≤ max 0 (t - c.2) := le_max_left _ _
  have h2 : (0 : ℚ) ≤ max 0 (c.1 - t) := le_max_left _ _
  unfold winPen; linarith

theorem winPen_eq_zero_iff (c : ℚ × ℚ) (t : ℚ) :
    winPen c t = 0 ↔ c.1 ≤ t ∧ t ≤ c.2 := by
  unfold winPen
  constructor
  · intro h
    have h1 : (0 : ℚ) ≤ max 0 (t - c.2) := le_max_left _ _
    have h2 : (0 : ℚ) ≤ max 0 (c.1 - t) := le_max_left _ _
    have hu : max 0 (t - c.2) = 0 := by linarith
    have hd : max 0 (c.1 - t) = 0 := by linarith
    rw [max_eq_left_iff] at hu hd
    constructor <;> linarith
  · intro ⟨h1, h2⟩
    have hu : max 0 (t - c.2) = 0 := by rw [max_eq_left_iff]; linarith
    have hd : max 0 (c.1 - t) = 0 := by rw [max_eq_left_iff]; linarith
    rw [hu, hd]; ring

theorem tvAux_eq_sum (time_matrix : ℕ → ℕ → ℚ) (time_constraints : ℕ → ℚ × ℚ)
    (xs : List ℕ) : ∀ (idx : ℕ) (t vu vd : ℚ),
    tvAux time_matrix time_constraints xs idx t vu vd =
      vu + vd + ∑ k ∈ Finset.range (xs.length - 1),
        winPen (time_constraints (idx + k)) (t + elapsed time_matrix xs (k + 1)) := by
  induction xs with
  | nil => intro idx t vu vd; simp [tvAux]
  | cons a xs ih =>
    intro idx t vu vd
    match xs with
    | [] => simp [tvAux]
    | b :: rest =>
      rw [tvAux, ih]
      have hlen : (a :: b :: rest).length - 1 = rest.length + 1 := by
        simp
      rw [hlen]
      rw [Finset.sum_range_succ']
      have h0 : elapsed time_matrix (a :: b :: rest) 1 = time_matrix a b := by
        simp [elapsed]
      have hstep : ∀ k, elapsed time_matrix (a :: b :: rest) (k + 1 + 1) =
          time_matrix a b + elapsed time_matrix (b :: rest) (k + 1) := by
        intro k; rfl
      have hblen : (b :: rest).length - 1 = rest.length := by simp
      rw [hblen]
      have hcongr : ∀ k ∈ Finset.range rest.length,
          winPen (time_constraints (idx + 1 + k))
            (t + time_matrix a b + elapsed time_matrix (b :: rest) (k + 1)) =
          winPen (time_constraints (idx + (k + 1)))
            (t + elapsed time_matrix (a :: b :: rest) (k + 1 + 1)) := by
        intro k _
        rw [hstep k]
        ring_nf
      rw [Finset.sum_congr rfl hcongr]
      rw [h0]
      simp only [add_zero]
      unfold winPen
      ring

/-- Closed form of the time-violation loop: a sum over the checked positions
`1 .. N-1`, each contributing its early/late window penalty at the cumulative
elapsed time. -/
theorem compute_time_violation_seq_eq_sum (time_matrix : ℕ → ℕ → ℚ)
    (time_constraints : ℕ → ℚ × ℚ) (seq : List ℕ) :
    compute_time_violation_seq time_matrix time_constraints seq =
      ∑ k ∈ Finset.range (seq.length - 1),
        winPen (time_constraints (1 + k)) (elapsed time_matrix seq (k + 1)) := by
  rw [compute_time_violation_seq, tvAux_eq_sum]
  simp

theorem compute_time_violation_seq_nonneg (time_matrix : ℕ → ℕ → ℚ)
    (time_constraints : ℕ → ℚ × ℚ) (seq : List ℕ) :
    0 ≤ compute_time_violation_seq time_matrix time_constraints seq := by
  rw [compute_time_violation_seq_eq_sum]
  exact Finset.sum_nonneg fun k _ => winPen_nonneg _ _

theorem winPen_mono (c c2 : ℚ × ℚ) (t : ℚ) (h1 : c.1 ≤ c2.1) (h2 : c2.2 ≤ c.2) :
    winPen c t ≤ winPen c2 t := by
  unfold winPen
  have hu : max 0 (t - c.2) ≤ max 0 (t - c2.2) :=
    max_le_max le_rfl (by linarith)
  have hd : max 0 (c.1 - t) ≤ max 0 (c2.1 - t) :=
    max_le_max le_rfl (by linarith)
  linarith

/-- C2. `compute_time_violation_seq` returns `0` exactly when the cumulative
elapsed time at every checked position `i = 1 .. N-1` of `seq` lies inside
that position's `[lower, upper]` window, is strictly positive otherwise, and
is monotone under tightening the windows (raising lower bounds or lowering
upper bounds) at the checked positions. -/
theorem irl_C2_time_violation (time_matrix : ℕ → ℕ → ℚ)
    (tc tc2 : ℕ → ℚ × ℚ) (seq : List ℕ)
    (htight : ∀ i, 1 ≤ i → i < seq.length →
      (tc i).1 ≤ (tc2 i).1 ∧ (tc2 i).2 ≤ (tc i).2) :
    (compute_time_violation_seq time_matrix tc seq = 0 ↔
      ∀ i, 1 ≤ i → i < seq.length →
        (tc i).1 ≤ elapsed time_matrix seq i ∧ elapsed time_matrix seq i ≤ (tc i).2)
    ∧ ((¬ ∀ i, 1 ≤ i → i < seq.length →
        (tc i).1 ≤ elapsed time_matrix seq i ∧ elapsed time_matrix seq i ≤ (tc i).2) →
        0 < compute_time_violation_seq time_matrix tc seq)
    ∧ compute_time_violation_seq time_matrix tc seq ≤
      compute_time_violation_seq time_matrix tc2 seq := by
  have hiff : compute_time_violation_seq time_matrix tc seq = 0 ↔
      ∀ i, 1 ≤ i → i < seq.length →
        (tc i).1 ≤ elapsed time_matrix seq i ∧ elapsed time_matrix seq i ≤ (tc i).2 := by
    rw [compute_time_violation_seq_eq_sum]
    rw [Finset.sum_eq_zero_iff_of_nonneg fun k _ => winPen_nonneg _ _]
    constructor
    · intro h i h1 h2
      obtain ⟨k, rfl⟩ : ∃ k, i = 1 + k := ⟨i - 1, by omega⟩
      have hk : k ∈ Finset.range (seq.length - 1) := by
        rw [Finset.mem_range]; omega
      rw [Nat.add_comm 1 k]
      have h0 := h k hk
      rw [Nat.add_comm 1 k] at h0
      exact (winPen_eq_zero_iff _ _).mp h0
    · intro h k hk
      rw [Finset.mem_range] at hk
      rw [winPen_eq_zero_iff]
      have := h (1 + k) (by omega) (by omega)
      rw [Nat.add_comm 1 k] at this ⊢
      exact this
  refine ⟨hiff, ?_, ?_⟩
  · intro hnot
    rcases lt_or_eq_of_le (compute_time_violation_seq_nonneg time_matrix tc seq) with h | h
    · exact h
    · exact absurd (hiff.mp h.symm) hnot
  · rw [compute_time_violation_seq_eq_sum, compute_time_violation_seq_eq_sum]
    refine Finset.sum_le_sum fun k hk => ?_
    rw [Finset.mem_range] at hk
    have := htight (1 + k) (by omega) (by omega)
    exact winPen_mono _ _ _ this.1 this.2

/-- Closed witness for C2 on a concrete instance: three stops, unit legs,
windows tightened from `[0, 10]` to `[1, 2]`. -/
theorem irl_C2_time_violation_witness :
    compute_time_violation_seq (fun _ _ => 1) (fun _ => (0, 10)) [0, 1, 2] ≤
      compute_time_violation_seq (fun _ _ => 1) (fun _ => (1, 2)) [0, 1, 2] :=
  (irl_C2_time_violation (fun _ _ => 1) (fun _ => (0, 10)) (fun _ => (1, 2)) [0, 1, 2]
    (fun _ _ _ => ⟨by norm_num, by norm_num⟩)).2.2

theorem elapsed_congr (tm tm2 : ℕ → ℕ → ℚ) :
    ∀ (xs : List ℕ), (∀ p ∈ consecPairs xs, tm p.1 p.2 = tm2 p.1 p.2) →
    ∀ m, elapsed tm xs m = elapsed tm2 xs m
  | [], _, m => by cases m <;> simp [elapsed]
  | [_], _, m => by cases m <;> simp [elapsed]
  | _ :: _ :: _, _, 0 => by simp [elapsed]
  | a :: b :: rest, h, (m + 1) => by
      have hab : tm a b = tm2 a b := h (a, b) (by simp [consecPairs])
      have htail := elapsed_congr tm tm2 (b :: rest)
        (fun p hp => h p (by simp [consecPairs, hp])) m
      simp [elapsed, hab, htail]

/-- C10. `compute_time_violation_seq` never reads the constraint at position
`0`, and the closing edge back to the first stop incurs no penalty: two
travel-time matrices agreeing on the consecutive (non-closing) pairs of
`seq`, and two constraint functions agreeing on positions `1 .. N-1`, give
identical violations — so neither `time_constraints[0]` nor the
return-to-start travel time can ever contribute. -/
theorem irl_C10_unread_inputs (tm tm2 : ℕ → ℕ → ℚ) (tc tc2 : ℕ → ℚ × ℚ)
    (seq : List ℕ)
    (htm : ∀ p ∈ consecPairs seq, tm p.1 p.2 = tm2 p.1 p.2)
    (htc : ∀ i, 1 ≤ i → i < seq.length → tc i = tc2 i) :
    compute_time_violation_seq tm tc seq =
      compute_time_violation_seq tm2 tc2 seq := by
  rw [compute_time_violation_seq_eq_sum, compute_time_violation_seq_eq_sum]
  refine Finset.sum_congr rfl fun k hk => ?_
  rw [Finset.mem_range] at hk
  rw [htc (1 + k) (by omega) (by omega), elapsed_congr tm tm2 seq htm (k + 1)]

/-- Closed witness for C10: the constraint at position `0` and the
travel-time entry of the closing edge `(2, 0)` are changed, yet the
violation is unchanged. -/
theorem irl_C10_unread_inputs_witness :
    compute_time_violation_seq (fun i j => ((i + j : ℕ) : ℚ))
      (fun _ => (0, 100)) [0, 1, 2] =
    compute_time_violation_seq
      (fun i j => if i = 2 ∧ j = 0 then 99 else ((i + j : ℕ) : ℚ))
      (fun i => if i = 0 then (50, 60) else (0, 100)) [0, 1, 2] :=
  irl_C10_unread_inputs _ _ _ _ [0, 1, 2]
    (by decide)
    (fun i h1 _ => by
      have : i ≠ 0 := by omega
      simp [this])

theorem lastStop_concat : ∀ (xs : List ℕ) (a : ℕ), lastStop (xs ++ [a]) = a
  | [], _ => rfl
  | [_], _ => rfl
  | _ :: y :: rest, a => by
      have := lastStop_concat (y :: rest) a
      simpa [lastStop] using this

theorem lastStop_reverse (l : List ℕ) : lastStop l.reverse = l.headD 0 := by
  match l with
  | [] => rfl
  | a :: rest => simp [List.reverse_cons, lastStop_concat]

theorem headD_reverse (l : List ℕ) : l.reverse.headD 0 = lastStop l := by
  have h := lastStop_reverse l.reverse
  rw [List.reverse_reverse] at h
  exact h.symm

theorem consecPairs_concat : ∀ (xs : List ℕ) (a : ℕ), xs ≠ [] →
    consecPairs (xs ++ [a]) = consecPairs xs ++ [(lastStop xs, a)]
  | [], _, h => absurd rfl h
  | [_], _, _ => rfl
  | x :: y :: rest, a, _ => by
      have ih := consecPairs_concat (y :: rest) a (by simp)
      simp only [List.cons_append] at ih ⊢
      simp [consecPairs, lastStop, ih]

theorem consecPairs_length : ∀ (xs : List ℕ),
    (consecPairs xs).length = xs.length - 1
  | [] => rfl
  | [_] => rfl
  | x :: y :: rest => by
      have ih := consecPairs_length (y :: rest)
      simp [consecPairs] at ih ⊢
      omega

theorem cycleEdges_eq (l : List ℕ) (h : l ≠ []) :
    cycleEdges l = consecPairs l ++ [(lastStop l, l.headD 0)] := by
  match l with
  | [] => exact absurd rfl h
  | a :: rest => rfl

theorem cycleEdges_length (l : List ℕ) (h : l ≠ []) :
    (cycleEdges l).length = l.length := by
  rw [cycleEdges_eq l h]
  simp [consecPairs_length]
  have : 0 < l.length := List.length_pos.mpr h
  omega

theorem edgeSum_nil (w : ℕ → ℕ → ℚ) : edgeSum w [] = 0 := rfl

theorem edgeSum_cons (w : ℕ → ℕ → ℚ) (p : ℕ × ℕ) (es : List (ℕ × ℕ)) :
    edgeSum w (p :: es) = w p.1 p.2 + edgeSum w es := by
  simp [edgeSum]

theorem edgeSum_perm (w : ℕ → ℕ → ℚ) {es es2 : List (ℕ × ℕ)}
    (h : es.Perm es2) : edgeSum w es = edgeSum w es2 :=
  List.Perm.sum_eq (h.map _)

theorem lcFold_closed (tm : ℕ → ℕ → ℚ) (lf : ℕ → ℕ → ℕ → ℚ) (nf : ℕ) :
    ∀ (es : List (ℕ × ℕ)) (c : ℚ) (g : ℕ → ℚ),
    es.foldl (lcStep tm lf nf) (c, (List.range nf).map g) =
      (c + edgeSum tm es, (List.range nf).map (fun f => g f + edgeSum (lf f) es))
  | [], c, g => by
      simp [edgeSum]
  | p :: es, c, g => by
      rw [List.foldl_cons]
      have hstep : lcStep tm lf nf (c, (List.range nf).map g) p =
          (c + tm p.1 p.2,
           (List.range nf).map (fun f => g f + lf f p.1 p.2)) := by
        unfold lcStep
        refine Prod.ext rfl ?_
        refine List.map_congr_left fun f hf => ?_
        rw [List.mem_range] at hf
        rw [List.getD_eq_getElem?_getD, List.getElem?_map, List.getElem?_range hf]
        rfl
      rw [hstep, lcFold_closed tm lf nf es (c + tm p.1 p.2) (fun f => g f + lf f p.1 p.2)]
      refine Prod.ext ?_ ?_
      · simp [edgeSum_cons]; ring
      · simp only
        refine List.map_congr_left fun f _ => ?_
        rw [edgeSum_cons]; ring

/-- Closed form of `compute_link_cost_seq`: the time cost is the sum of the
time matrix over the cyclic edges, and each feature cost entry is the sum of
that feature plane over the same edges. -/
theorem compute_link_cost_seq_closed (tm : ℕ → ℕ → ℚ) (lf : ℕ → ℕ → ℕ → ℚ)
    (nf : ℕ) (seq : List ℕ) :
    compute_link_cost_seq tm lf nf seq =
      (edgeSum tm (cycleEdges seq),
       (List.range nf).map (fun f => edgeSum (lf f) (cycleEdges seq))) := by
  unfold compute_link_cost_seq
  have hrep : List.replicate nf (0 : ℚ) = (List.range nf).map (fun _ => 0) := by
    simp [List.map_const']
  rw [hrep, lcFold_closed]
  simp

theorem cycleEdges_rotate_one (l : List ℕ) (h : l ≠ []) :
    (cycleEdges (l.rotate 1)).Perm (cycleEdges l) := by
  match l with
  | [] => exact absurd rfl h
  | [a] => simp [List.rotate_singleton]
  | a :: b :: rest =>
      have hrot : (a :: b :: rest).rotate 1 = (b :: rest) ++ [a] := by
        rw [List.rotate_cons_succ, List.rotate_zero]
      rw [hrot]
      have hne : (b :: rest) ≠ [] := by simp
      have hcyc : cycleEdges ((b :: rest) ++ [a]) =
          consecPairs (b :: rest) ++ [(lastStop (b :: rest), a)] ++
            [(a, b)] := by
        rw [cycleEdges_eq _ (by simp), consecPairs_concat _ _ hne,
          lastStop_concat]
        simp
      rw [hcyc]
      have hrhs : cycleEdges (a :: b :: rest) =
          (a, b) :: (consecPairs (b :: rest) ++ [(lastStop (b :: rest), a)]) := by
        rw [cycleEdges_eq _ (by simp)]
        simp [consecPairs, lastStop]
      rw [hrhs]
      have p1 : consecPairs (b :: rest) ++ [(lastStop (b :: rest), a)] ++ [(a, b)] =
          consecPairs (b :: rest) ++
            ((lastStop (b :: rest), a) :: [(a, b)]) := by simp
      have p2 : List.Perm
          (consecPairs (b :: rest) ++ ((lastStop (b :: rest), a) :: [(a, b)]))
          (consecPairs (b :: rest) ++ ((a, b) :: [(lastStop (b :: rest), a)])) :=
        List.Perm.append_left _ (List.Perm.swap _ _ _)
      have p3 : List.Perm
          (consecPairs (b :: rest) ++ ((a, b) :: [(lastStop (b :: rest), a)]))
          ((a, b) :: (consecPairs (b :: rest) ++ [(lastStop (b :: rest), a)])) :=
        List.perm_middle
      rw [p1]
      exact p2.trans p3

theorem consecPairs_reverse : ∀ (l : List ℕ),
    consecPairs l.reverse = ((consecPairs l).map Prod.swap).reverse
  | [] => rfl
  | [_] => rfl
  | a :: b :: rest => by
      have ih := consecPairs_reverse (b :: rest)
      have hne : (b :: rest).reverse ≠ [] := by simp
      rw [List.reverse_cons, consecPairs_concat _ _ hne, ih, lastStop_reverse]
      simp [consecPairs]

theorem cycleEdges_reverse_perm (l : List ℕ) :
    (cycleEdges l.reverse).Perm ((cycleEdges l).map Prod.swap) := by
  match l with
  | [] => rfl
  | a :: rest =>
      have hne : (a :: rest) ≠ [] := by simp
      have hner : (a :: rest).reverse ≠ [] := by simp
      rw [cycleEdges_eq _ hner, cycleEdges_eq _ hne, consecPairs_reverse,
        lastStop_reverse, headD_reverse]
      rw [List.map_append]
      refine List.Perm.append ((List.reverse_perm _)) ?_
      simp [Prod.swap]

theorem edgeSum_map_swap (w : ℕ → ℕ → ℚ) (hsym : ∀ i j, w i j = w j i)
    (es : List (ℕ × ℕ)) : edgeSum w (es.map Prod.swap) = edgeSum w es := by
  unfold edgeSum
  rw [List.map_map]
  refine congrArg List.sum (List.map_congr_left fun p _ => ?_)
  simp [Prod.swap, hsym p.2 p.1]

/-- C5. For a nonempty cyclic sequence of length `N`, `compute_link_cost_seq`
accumulates exactly the `N` cyclic edges (`N-1` consecutive pairs plus the
closing edge), its result is invariant under rotation of the sequence, it is
not invariant under reversal for some asymmetric cost tensor, and it is
reversal-invariant whenever the cost tensors are symmetric. -/
theorem irl_C5_edge_cost (tm : ℕ → ℕ → ℚ) (lf : ℕ → ℕ → ℕ → ℚ) (nf : ℕ)
    (seq : List ℕ) (h : seq ≠ []) :
    ((cycleEdges seq).length = seq.length
      ∧ cycleEdges seq = consecPairs seq ++ [(lastStop seq, seq.headD 0)]
      ∧ (consecPairs seq).length = seq.length - 1
      ∧ compute_link_cost_seq tm lf nf seq =
          (edgeSum tm (cycleEdges seq),
           (List.range nf).map (fun f => edgeSum (lf f) (cycleEdges seq))))
    ∧ (∀ n, compute_link_cost_seq tm lf nf (seq.rotate n) =
        compute_link_cost_seq tm lf nf seq)
    ∧ (∃ tm2 seq2, seq2 ≠ [] ∧
        compute_link_cost_seq tm2 (fun _ _ _ => 0) 0 seq2.reverse ≠
          compute_link_cost_seq tm2 (fun _ _ _ => 0) 0 seq2)
    ∧ ((∀ i j, tm i j = tm j i) → (∀ f i j, lf f i j = lf f j i) →
        compute_link_cost_seq tm lf nf seq.reverse =
          compute_link_cost_seq tm lf nf seq) := by
  refine ⟨⟨cycleEdges_length seq h, cycleEdges_eq seq h, consecPairs_length seq,
    compute_link_cost_seq_closed tm lf nf seq⟩, ?_, ?_, ?_⟩
  · intro n
    induction n with
    | zero => rw [List.rotate_zero]
    | succ n ihn =>
        have hrr : seq.rotate (n + 1) = (seq.rotate n).rotate 1 := by
          rw [List.rotate_rotate]
        have hne : seq.rotate n ≠ [] := by
          intro hc
          have := congrArg List.length hc
          rw [List.length_rotate] at this
          exact h (List.eq_nil_of_length_eq_zero this)
        have hperm := cycleEdges_rotate_one (seq.rotate n) hne
        rw [hrr, compute_link_cost_seq_closed, compute_link_cost_seq_closed] at *
        refine Prod.ext ?_ ?_
        · have : edgeSum tm (cycleEdges ((seq.rotate n).rotate 1)) =
              edgeSum tm (cycleEdges (seq.rotate n)) := edgeSum_perm tm hperm
          simp only at ihn ⊢
          rw [this]
          exact congrArg Prod.fst ihn
        · simp only
          have h2 := congrArg Prod.snd ihn
          simp only at h2
          rw [← h2]
          refine List.map_congr_left fun f _ => edgeSum_perm (lf f) hperm
  · refine ⟨fun i j => if i = 0 ∧ j = 1 then 1 else 0, [0, 1, 2], by simp, ?_⟩
    norm_num [compute_link_cost_seq, cycleEdges, consecPairs, lastStop, lcStep]
  · intro hsym hsymf
    rw [compute_link_cost_seq_closed, compute_link_cost_seq_closed]
    have hperm := cycleEdges_reverse_perm seq
    refine Prod.ext ?_ ?_
    · simp only
      rw [edgeSum_perm tm hperm, edgeSum_map_swap tm hsym]
    · simp only
      refine List.map_congr_left fun f _ => ?_
      rw [edgeSum_perm (lf f) hperm, edgeSum_map_swap (lf f) (hsymf f)]

/-- Closed witness for C5: rotating the concrete tour `[0, 1, 2]` by one
position leaves the accumulated cost unchanged. -/
theorem irl_C5_edge_cost_witness :
    compute_link_cost_seq (fun i j => ((i + 2 * j : ℕ) : ℚ)) (fun _ _ _ => 0) 1
        ([0, 1, 2].rotate 1) =
      compute_link_cost_seq (fun i j => ((i + 2 * j : ℕ) : ℚ)) (fun _ _ _ => 0) 1
        [0, 1, 2] :=
  (irl_C5_edge_cost (fun i j => ((i + 2 * j : ℕ) : ℚ)) (fun _ _ _ => 0) 1
    [0, 1, 2] (by simp)).2.1 1

/-- Per-route tuple assembled by the solver dispatch
`(pred_seq, demo_tv, pred_tv, seq_score)` (src/train_irl_nn.py:76). -/
structure RouteOutput where
  pred_seq : List ℕ
  demo_tv : ℚ
  pred_tv : ℚ
  seq_score : ℚ
deriving DecidableEq

instance : Inhabited RouteOutput := ⟨⟨[], 0, 0, 0⟩⟩

/-- Field of the per-route dataset record read by `irl_loss`: the
precomputed demonstrated indicator matrix `binary_mat`. -/
structure TspDatum where
  binary_mat : ℕ → ℕ → ℚ

instance : Inhabited TspDatum := ⟨⟨fun _ _ => 0⟩⟩

/-- Modelled from the spec: the model's trainable state. The spec describes
lambda as "a scalar, owned by the model, trainable"; the cost-matrix
network's weights (class `IRLModel`, outside the specified core) are kept
opaque as a parameter list. -/
structure IRLModel where
  lamb : ℚ
  net_params : List ℚ

/-- Modelled from the spec: `seq_binary_mat` (imported from the dataset
module, outside the specified core) is "the indicator matrix [with] a 1 at
`(seq[i-1], seq[i])` for every consecutive (cyclic) pair and 0 elsewhere". -/
def seq_binary_mat (seq : List ℕ) : ℕ → ℕ → ℚ :=
  fun i j => if (i, j) ∈ cycleEdges seq then 1 else 0

/-- Elementwise product-sum `torch.sum(A * B)` over `n × n` matrices. -/
def matProdSum (n : ℕ) (A B : ℕ → ℕ → ℚ) : ℚ :=
  ∑ i ∈ Finset.range n, ∑ j ∈ Finset.range n, A i j * B i j

/-- Local `pred_cost` of the `irl_loss` loop (src/train_irl_nn.py:95-98):
the predicted sequence's indicator matrix times this route's cost matrix,
summed elementwise. -/
def predCost (batch_output : List RouteOutput)
    (thetas_tensor : List (ℕ × (ℕ → ℕ → ℚ))) (i : ℕ) : ℚ :=
  matProdSum (thetas_tensor.getD i (0, fun _ _ => 0)).1
    (seq_binary_mat (batch_output.getD i default).pred_seq)
    (thetas_tensor.getD i (0, fun _ _ => 0)).2

/-- Local `demo_cost` of the `irl_loss` loop (src/train_irl_nn.py:99-102):
the analogous sum with the precomputed demonstrated indicator matrix. -/
def demoCost (thetas_tensor : List (ℕ × (ℕ → ℕ → ℚ)))
    (tsp_data : List TspDatum) (i : ℕ) : ℚ :=
  matProdSum (thetas_tensor.getD i (0, fun _ _ => 0)).1
    (tsp_data.getD i default).binary_mat
    (thetas_tensor.getD i (0, fun _ _ => 0)).2

/-- Local `route_loss` of the `irl_loss` loop (src/train_irl_nn.py:104-106):
`F.relu((demo_cost + lamb * demo_tv) - (pred_cost + lamb * pred_tv))`. -/
def routeLoss (batch_output : List RouteOutput)
    (thetas_tensor : List (ℕ × (ℕ → ℕ → ℚ))) (tsp_data : List TspDatum)
    (lamb : ℚ) (i : ℕ) : ℚ :=
  max 0 ((demoCost thetas_tensor tsp_data i +
      lamb * (batch_output.getD i default).demo_tv)
    - (predCost batch_output thetas_tensor i +
      lamb * (batch_output.getD i default).pred_tv))

/-- Embedding of `irl_loss` (src/train_irl_nn.py:87-112): accumulate the
per-route hinge values over the batch, then divide by the batch length. -/
def irl_loss (batch_output : List RouteOutput)
    (thetas_tensor : List (ℕ × (ℕ → ℕ → ℚ))) (tsp_data : List TspDatum)
    (model : IRLModel) : ℚ :=
  ((List.range batch_output.length).foldl
    (fun acc i => acc + routeLoss batch_output thetas_tensor tsp_data model.lamb i)
    0) / (batch_output.length : ℚ)

theorem foldl_add_eq_sum (f : ℕ → ℚ) : ∀ (l : List ℕ) (c : ℚ),
    l.foldl (fun acc i => acc + f i) c = c + (l.map f).sum
  | [], c => by simp
  | x :: xs, c => by
      rw [List.foldl_cons, foldl_add_eq_sum f xs (c + f x)]
      simp
      ring

/-- C1. For a non-empty batch, `irl_loss` is the mean over routes of
`max(0, (demo_cost + lambda * demo_violation) - (pred_cost + lambda *
pred_violation))`, where `pred_cost` pairs the predicted sequence's cyclic
indicator matrix with the route's cost matrix and `demo_cost` pairs the
precomputed demonstrated indicator matrix with it; consequently the loss is
nonnegative, and a route contributes exactly `0` whenever the demonstrated
total is at most the predicted total. -/
theorem irl_C1_loss (batch_output : List RouteOutput)
    (thetas_tensor : List (ℕ × (ℕ → ℕ → ℚ))) (tsp_data : List TspDatum)
    (model : IRLModel) (h : batch_output ≠ []) :
    irl_loss batch_output thetas_tensor tsp_data model =
      ((List.range batch_output.length).map (fun i =>
        max 0 ((demoCost thetas_tensor tsp_data i +
            model.lamb * (batch_output.getD i default).demo_tv)
          - (predCost batch_output thetas_tensor i +
            model.lamb * (batch_output.getD i default).pred_tv)))).sum
        / (batch_output.length : ℚ)
    ∧ 0 ≤ irl_loss batch_output thetas_tensor tsp_data model
    ∧ ∀ i < batch_output.length,
        demoCost thetas_tensor tsp_data i +
            model.lamb * (batch_output.getD i default).demo_tv ≤
          predCost batch_output thetas_tensor i +
            model.lamb * (batch_output.getD i default).pred_tv →
        routeLoss batch_output thetas_tensor tsp_data model.lamb i = 0 := by
  have hform : irl_loss batch_output thetas_tensor tsp_data model =
      ((List.range batch_output.length).map
        (routeLoss batch_output thetas_tensor tsp_data model.lamb)).sum
        / (batch_output.length : ℚ) := by
    unfold irl_loss
    rw [foldl_add_eq_sum]
    simp
  refine ⟨hform, ?_, ?_⟩
  · rw [hform]
    refine div_nonneg ?_ (by positivity)
    refine List.sum_nonneg fun x hx => ?_
    obtain ⟨i, _, rfl⟩ := List.mem_map.mp hx
    exact le_max_left _ _
  · intro i _ hle
    unfold routeLoss
    rw [max_eq_left]
    linarith

/-- Closed witness for C1 on a one-route batch. -/
theorem irl_C1_loss_witness :
    0 ≤ irl_loss [⟨[0, 1], 1, 2, 0⟩] [(2, fun _ _ => 1)] [⟨fun _ _ => 0⟩]
      ⟨3, [7]⟩ :=
  (irl_C1_loss [⟨[0, 1], 1, 2, 0⟩] [(2, fun _ _ => 1)] [⟨fun _ _ => 0⟩]
    ⟨3, [7]⟩ (by simp)).2.1

/-- C4 counterexample. Two model states that produce identical cost matrices
(identical network parameters; the very same `thetas_tensor` is passed) but
different `lamb` yield different losses on the same batch output: the loss
does depend on the trainable scalar `lamb`, not only on the cost-matrix
terms. -/
theorem irl_C4_counterexample :
    irl_loss [⟨[], 1, 0, 0⟩] [(0, fun _ _ => 0)] [⟨fun _ _ => 0⟩] ⟨1, []⟩ ≠
      irl_loss [⟨[], 1, 0, 0⟩] [(0, fun _ _ => 0)] [⟨fun _ _ => 0⟩] ⟨2, []⟩ := by
  norm_num [irl_loss, routeLoss, demoCost, predCost, matProdSum,
    List.range_succ]

/-- C4 (amended). `irl_loss` reads the model's trainable state only through
the scalar `lamb` (the cost matrices enter as the separately passed
`thetas_tensor`): two model states with equal `lamb` produce equal losses on
the same batch output, cost matrices and data, whatever their network
parameters; neither the violation scalars nor the solver's decisions carry
any further model dependence. -/
theorem irl_C4_loss_depends_only_on_lamb (batch_output : List RouteOutput)
    (thetas_tensor : List (ℕ × (ℕ → ℕ → ℚ))) (tsp_data : List TspDatum)
    (m1 m2 : IRLModel) (h : m1.lamb = m2.lamb) :
    irl_loss batch_output thetas_tensor tsp_data m1 =
      irl_loss batch_output thetas_tensor tsp_data m2 := by
  unfold irl_loss
  rw [h]

/-- Closed witness for the amended C4: same `lamb`, different network
parameters, equal loss. -/
theorem irl_C4_witness :
    irl_loss [⟨[], 1, 0, 0⟩] [(0, fun _ _ => 0)] [⟨fun _ _ => 0⟩] ⟨5, [1, 2]⟩ =
      irl_loss [⟨[], 1, 0, 0⟩] [(0, fun _ _ => 0)] [⟨fun _ _ => 0⟩] ⟨5, [9]⟩ :=
  irl_C4_loss_depends_only_on_lamb _ _ _ _ _ rfl

/-- Embedding of the theta-slicing loop of `fit` (src/train_irl_nn.py:140-155):
for each route of stop count `n`, take `obj_matrix[idx_so_far : idx_so_far +
n * n]` from the flat predictor output and advance `idx_so_far` by `n * n`. -/
def sliceThetas (obj_matrix : List ℚ) : List ℕ → ℕ → List (List ℚ)
  | [], _ => []
  | n :: rest, idx_so_far =>
      ((obj_matrix.drop idx_so_far).take (n * n)) ::
        sliceThetas obj_matrix rest (idx_so_far + n * n)

/-- Half-open index ranges `[start, stop)` carved out of the flat output by
the slicing loop. -/
def sliceRanges : List ℕ → ℕ → List (ℕ × ℕ)
  | [], _ => []
  | n :: rest, s => (s, s + n * n) :: sliceRanges rest (s + n * n)

theorem sliceThetas_join (obj_matrix : List ℚ) : ∀ (ns : List ℕ) (s : ℕ),
    obj_matrix.length = s + (ns.map fun n => n * n).sum →
    (sliceThetas obj_matrix ns s).flatten = obj_matrix.drop s
  | [], s, h => by
      have : obj_matrix.length ≤ s := by simp at h; omega
      simp [sliceThetas, List.drop_eq_nil_of_le this]
  | n :: rest, s, h => by
      have hlen : obj_matrix.length = (s + n * n) + (rest.map fun n => n * n).sum := by
        simp at h ⊢; omega
      have ih := sliceThetas_join obj_matrix rest (s + n * n) hlen
      rw [sliceThetas, List.flatten_cons, ih]
      have hdd : obj_matrix.drop (s + n * n) = (obj_matrix.drop s).drop (n * n) := by
        rw [List.drop_drop, Nat.add_comm]
      rw [hdd, List.take_append_drop]

theorem sliceThetas_lengths (obj_matrix : List ℚ) : ∀ (ns : List ℕ) (s : ℕ),
    obj_matrix.length = s + (ns.map fun n => n * n).sum →
    (sliceThetas obj_matrix ns s).map List.length = ns.map (fun n => n * n)
  | [], _, _ => rfl
  | n :: rest, s, h => by
      have hlen : obj_matrix.length = (s + n * n) + (rest.map fun n => n * n).sum := by
        simp at h ⊢; omega
      have ih := sliceThetas_lengths obj_matrix rest (s + n * n) hlen
      rw [sliceThetas]
      simp only [List.map_cons, ih]
      have : ((obj_matrix.drop s).take (n * n)).length = n * n := by
        rw [List.length_take, List.length_drop]
        simp at h
        omega
      rw [this]

theorem sliceRanges_chain : ∀ (ns : List ℕ) (s : ℕ),
    List.Chain' (fun a b : ℕ × ℕ => a.2 = b.1) (sliceRanges ns s)
  | [], _ => List.chain'_nil
  | [_], _ => List.chain'_singleton _
  | n :: m :: rest, s => by
      have ih := sliceRanges_chain (m :: rest) (s + n * n)
      rw [sliceRanges]
      rw [sliceRanges] at ih ⊢
      exact List.chain'_cons.mpr ⟨rfl, ih⟩

theorem sliceRanges_start_le : ∀ (ns : List ℕ) (s : ℕ),
    ∀ r ∈ sliceRanges ns s, s ≤ r.1 ∧ r.1 ≤ r.2
  | [], _, r, hr => absurd hr (by simp [sliceRanges])
  | n :: rest, s, r, hr => by
      rw [sliceRanges, List.mem_cons] at hr
      rcases hr with rfl | hr
      · exact ⟨le_refl s, by omega⟩
      · have := sliceRanges_start_le rest (s + n * n) r hr
        exact ⟨by omega, this.2⟩

theorem sliceRanges_pairwise : ∀ (ns : List ℕ) (s : ℕ),
    List.Pairwise (fun a b : ℕ × ℕ => a.2 ≤ b.1) (sliceRanges ns s)
  | [], _ => List.Pairwise.nil
  | n :: rest, s => by
      rw [sliceRanges]
      refine List.pairwise_cons.mpr ⟨?_, sliceRanges_pairwise rest (s + n * n)⟩
      intro b hb
      exact (sliceRanges_start_le rest (s + n * n) b hb).1

/-- C6. When the squared stop counts of the batch sum to the flat predictor
output's length, slicing by cumulative `route_len * route_len` offsets yields
per-route blocks of exactly `route_len * route_len` entries whose
concatenation is the whole flat output, and whose half-open index ranges are
consecutive (each starts where the previous one stops) and pairwise
disjoint — no gaps and no overlaps. -/
theorem irl_C6_slicing (obj_matrix : List ℚ) (ns : List ℕ)
    (h : obj_matrix.length = (ns.map fun n => n * n).sum) :
    (sliceThetas obj_matrix ns 0).map List.length = ns.map (fun n => n * n)
    ∧ (sliceThetas obj_matrix ns 0).flatten = obj_matrix
    ∧ List.Chain' (fun a b : ℕ × ℕ => a.2 = b.1) (sliceRanges ns 0)
    ∧ List.Pairwise (fun a b : ℕ × ℕ => a.2 ≤ b.1) (sliceRanges ns 0) := by
  have h0 : obj_matrix.length = 0 + (ns.map fun n => n * n).sum := by omega
  refine ⟨sliceThetas_lengths obj_matrix ns 0 h0, ?_,
    sliceRanges_chain ns 0, sliceRanges_pairwise ns 0⟩
  have := sliceThetas_join obj_matrix ns 0 h0
  rwa [List.drop_zero] at this

/-- Closed witness for C6: routes with 1 and 2 stops slice a flat output of
length `1 + 4 = 5` back into itself. -/
theorem irl_C6_slicing_witness :
    (sliceThetas [1, 2, 3, 4, 5] [1, 2] 0).flatten = [1, 2, 3, 4, 5] :=
  (irl_C6_slicing [1, 2, 3, 4, 5] [1, 2] (by rfl)).2.1

/-- Truncation toward zero — the semantics of Python `int()` on a number:
floor for nonnegative values, ceiling for negative ones. -/
def pyInt (q : ℚ) : ℤ := if 0 ≤ q then ⌊q⌋ else ⌈q⌉

/-- Type of the external constrained-TSP solver `constrained_tsp`
(objective matrix, travel times, time constraints, depot, integer lambda ↦
stop sequence), treated as an opaque oracle per the spec. -/
abbrev Solver := (ℕ → ℕ → ℚ) → (ℕ → ℕ → ℚ) → (ℕ → ℚ × ℚ) → ℕ → ℤ → List ℕ

/-- Type of the external sequence scorer `score` (demonstrated stop-id
cycle, predicted stop-id cycle, travel-time lookup ↦ scalar). -/
abbrev Scorer := List ℕ → List ℕ → (ℕ → ℕ → ℚ) → ℚ

/-- Per-route record handed to the dispatcher, mirroring the tuple built at
src/train_irl_nn.py:160-171 and unpacked at lines 51-58. -/
structure RouteData where
  objective_matrix : ℕ → ℕ → ℚ
  travel_times : ℕ → ℕ → ℚ
  time_constraints : ℕ → ℚ × ℚ
  stop_ids : List ℕ
  travel_time_dict : ℕ → ℕ → ℚ
  label : List ℕ

instance : Inhabited RouteData :=
  ⟨⟨fun _ _ => 0, fun _ _ => 0, fun _ => (0, 0), [], fun _ _ => 0, []⟩⟩

/-- Embedding of `compute_tsp_seq_for_route` (src/train_irl_nn.py:50-76):
map the demonstrated label to stop ids and close the cycle, call the solver
with depot `label[0]` and `int(lamb)`, compute both time violations, close
the predicted stop-id cycle and invoke the scorer. -/
def compute_tsp_seq_for_route (solver : Solver) (scorer : Scorer)
    (data : RouteData) (lamb : ℚ) : RouteOutput :=
  let demo_stop_ids := data.label.map (fun j => data.stop_ids.getD j 0)
  let demo_cycle := demo_stop_ids ++ [demo_stop_ids.headD 0]
  let pred_seq := solver data.objective_matrix data.travel_times
    data.time_constraints (data.label.headD 0) (pyInt lamb)
  let pred_tv := compute_time_violation_seq data.travel_times
    data.time_constraints pred_seq
  let demo_tv := compute_time_violation_seq data.travel_times
    data.time_constraints data.label
  let pred_stop_ids := pred_seq.map (fun j => data.stop_ids.getD j 0)
  let pred_cycle := pred_stop_ids ++ [pred_stop_ids.headD 0]
  ⟨pred_seq, demo_tv, pred_tv, scorer demo_cycle pred_cycle data.travel_time_dict⟩

/-- Modelled from the spec: the worker-pool dispatch of
`compute_tsp_seq_for_a_batch` (src/train_irl_nn.py:79-84). The spec makes
the pool an "ordered result collection — ordering preserved even though
execution is concurrent": workers finish in the arbitrary order given by
`completion`, each completion event records the input index with that
route's result, and the results are read back in input-index order. -/
def poolMapOrdered (f : RouteData → RouteOutput) (batch_data : List RouteData)
    (completion : List ℕ) : List RouteOutput :=
  let events := completion.map (fun i => (i, f (batch_data.getD i default)))
  (List.range batch_data.length).map (fun i => (events.lookup i).getD default)

/-- Embedding of `compute_tsp_seq_for_a_batch` (src/train_irl_nn.py:79-84):
dispatch `compute_tsp_seq_for_route` with the shared lambda over the batch
through the worker pool. -/
def compute_tsp_seq_for_a_batch (solver : Solver) (scorer : Scorer)
    (batch_data : List RouteData) (lamb : ℚ) (completion : List ℕ) :
    List RouteOutput :=
  poolMapOrdered (fun d => compute_tsp_seq_for_route solver scorer d lamb)
    batch_data completion

theorem lookup_map_eq (g : ℕ → ℕ × RouteOutput)
    (hg : ∀ j, (g j).1 = j) : ∀ (comp : List ℕ) (i : ℕ), i ∈ comp →
    (comp.map g).lookup i = some (g i).2
  | [], _, h => absurd h (List.not_mem_nil _)
  | j :: rest, i, h => by
      rw [List.map_cons]
      by_cases hji : j = i
      · subst hji
        simp [List.lookup, hg j]
      · have hmem : i ∈ rest := by
          rcases List.mem_cons.mp h with rfl | hr
          · exact absurd rfl hji
          · exact hr
        have hne : (i == (g j).1) = false := by
          rw [hg j]
          exact beq_eq_false_iff_ne.mpr (fun hc => hji hc.symm)
        simp [List.lookup, hne]
        exact lookup_map_eq g hg rest i hmem

theorem poolMapOrdered_eq_map (f : RouteData → RouteOutput)
    (batch_data : List RouteData) (completion : List ℕ)
    (h : completion.Perm (List.range batch_data.length)) :
    poolMapOrdered f batch_data completion = batch_data.map f := by
  unfold poolMapOrdered
  refine List.ext_getElem (by simp) ?_
  intro i h1 h2
  have hi : i < batch_data.length := by simpa using h2
  have himem : i ∈ completion := h.mem_iff.mpr (List.mem_range.mpr hi)
  have hlook := lookup_map_eq (fun i => (i, f (batch_data.getD i default)))
    (fun _ => rfl) completion i himem
  simp only [List.getElem_map, List.getElem_range]
  rw [hlook]
  simp [List.getD_eq_getElem?_getD, List.getElem?_eq_getElem hi]

/-- C7. The batch dispatch returns exactly one record per input route and
equals `compute_tsp_seq_for_route` mapped over the input records in input
order, for every possible completion order of the concurrent workers. -/
theorem irl_C7_solve_batch (solver : Solver) (scorer : Scorer)
    (batch_data : List RouteData) (lamb : ℚ) (completion : List ℕ)
    (h : completion.Perm (List.range batch_data.length)) :
    compute_tsp_seq_for_a_batch solver scorer batch_data lamb completion =
      batch_data.map (fun d => compute_tsp_seq_for_route solver scorer d lamb)
    ∧ (compute_tsp_seq_for_a_batch solver scorer batch_data lamb
        completion).length = batch_data.length := by
  have heq := poolMapOrdered_eq_map
    (fun d => compute_tsp_seq_for_route solver scorer d lamb) batch_data
    completion h
  exact ⟨heq, by rw [compute_tsp_seq_for_a_batch, heq, List.length_map]⟩

/-- Closed witness for C7: three routes whose workers finish in the order
`2, 0, 1` still produce the in-order mapped results. -/
theorem irl_C7_solve_batch_witness :
    compute_tsp_seq_for_a_batch ((fun _ _ _ _ _ => [0]) : Solver)
        ((fun _ _ _ => 0) : Scorer)
        ([default, default, default] : List RouteData) 0 [2, 0, 1] =
      List.map (fun d => compute_tsp_seq_for_route
          ((fun _ _ _ _ _ => [0]) : Solver) ((fun _ _ _ => 0) : Scorer) d 0)
        ([default, default, default] : List RouteData) :=
  (irl_C7_solve_batch ((fun _ _ _ _ _ => [0]) : Solver)
    ((fun _ _ _ => 0) : Scorer) ([default, default, default] : List RouteData)
    0 [2, 0, 1] (by decide)).1

/-- C8. For every route record with a nonempty label, the external solver is
invoked with the route's cost matrix, travel-time matrix and time
constraints, with depot equal to the first stop of the demonstrated label
sequence, and with lambda truncated to an integer (`int(lamb)` — floor for
nonnegative lambda, ceiling for negative). -/
theorem irl_C8_solver_invocation (solver : Solver) (scorer : Scorer)
    (data : RouteData) (lamb : ℚ) (d : ℕ) (rest : List ℕ)
    (h : data.label = d :: rest) :
    (compute_tsp_seq_for_route solver scorer data lamb).pred_seq =
      solver data.objective_matrix data.travel_times data.time_constraints d
        (pyInt lamb)
    ∧ (0 ≤ lamb → pyInt lamb = ⌊lamb⌋)
    ∧ (lamb < 0 → pyInt lamb = ⌈lamb⌉) := by
  refine ⟨?_, fun h0 => by simp [pyInt, h0],
    fun hneg => by simp [pyInt, not_le.mpr hneg]⟩
  simp [compute_tsp_seq_for_route, h]

/-- Closed witness for C8 at a concrete route and `lamb = 7/2`. -/
theorem irl_C8_solver_invocation_witness :
    (compute_tsp_seq_for_route ((fun _ _ _ dep l => [dep, l.toNat]) : Solver)
        ((fun _ _ _ => 0) : Scorer)
        (⟨fun _ _ => 1, fun _ _ => 1, fun _ => (0, 9), [5, 6], fun _ _ => 1,
          [1, 0]⟩ : RouteData) (7 / 2)).pred_seq =
      ((fun _ _ _ dep l => [dep, l.toNat]) : Solver) (fun _ _ => (1 : ℚ))
        (fun _ _ => (1 : ℚ)) (fun _ => ((0 : ℚ), (9 : ℚ))) 1 (pyInt (7 / 2)) :=
  (irl_C8_solver_invocation ((fun _ _ _ dep l => [dep, l.toNat]) : Solver)
    ((fun _ _ _ => 0) : Scorer)
    (⟨fun _ _ => 1, fun _ _ => 1, fun _ => (0, 9), [5, 6], fun _ _ => 1,
      [1, 0]⟩ : RouteData) (7 / 2) 1 [0] rfl).1

/-- Embedding of the epoch aggregation (src/train_irl_nn.py:209-210):
`mean_epoch_loss = (epoch_loss * config.batch_size) / len(dataloader.dataset)`
where `epoch_loss` is the sum of the per-step loss values. -/
def mean_epoch_loss (step_losses : List ℚ) (batch_size dataset_size : ℕ) : ℚ :=
  (step_losses.sum * (batch_size : ℚ)) / (dataset_size : ℚ)

/-- Weighted mean of per-step values, weighted by the given batch sizes. -/
def weightedMean (sizes : List ℕ) (vals : List ℚ) : ℚ :=
  ((sizes.zip vals).map (fun p => ((p.1 : ℚ)) * p.2)).sum / ((sizes.sum : ℕ) : ℚ)

theorem sum_map_mul_left_q (c : ℚ) : ∀ (l : List ℚ),
    (l.map (fun x => c * x)).sum = c * l.sum
  | [] => by simp
  | x :: xs => by
      simp [sum_map_mul_left_q c xs]
      ring

theorem zip_replicate_map (B : ℕ) : ∀ (vals : List ℚ),
    (((List.replicate vals.length B).zip vals).map
        (fun p => ((p.1 : ℚ)) * p.2)).sum =
      (vals.map (fun x => (B : ℚ) * x)).sum
  | [] => by simp
  | x :: xs => by
      simp [List.replicate_succ, zip_replicate_map B xs]

/-- C3 counterexample. Dataset of 3 routes, batch size 2: two steps of
batch sizes 2 and 1, both with per-step value 1. The code's epoch mean is
`(1 + 1) * 2 / 3 = 4/3`, while the weighted mean with weights matching the
actual batch sizes is `(2·1 + 1·1) / 3 = 1`: the aggregation is not a valid
weighted mean when the final batch is smaller. -/
theorem irl_C3_counterexample :
    mean_epoch_loss [1, 1] 2 3 ≠ weightedMean [2, 1] [1, 1] := by
  norm_num [mean_epoch_loss, weightedMean]

/-- C3 (amended). When every batch is full (dataset size = number of steps
times the batch size), the reported epoch mean equals the batch-size-weighted
mean of the per-step values; in general the code weights every per-step value
by `batch_size / dataset_size` regardless of the actual size of the final
batch, so with a smaller final batch the weights sum to more than 1 and the
result is not a weighted mean of the per-step values. -/
theorem irl_C3_epoch_mean (step_losses : List ℚ) (B : ℕ) :
    mean_epoch_loss step_losses B (step_losses.length * B) =
      weightedMean (List.replicate step_losses.length B) step_losses
    ∧ ∀ D : ℕ, mean_epoch_loss step_losses B D =
        (step_losses.map (fun l => ((B : ℚ) / (D : ℚ)) * l)).sum := by
  constructor
  · unfold mean_epoch_loss weightedMean
    rw [zip_replicate_map, sum_map_mul_left_q, List.sum_replicate,
      smul_eq_mul]
    push_cast
    ring
  · intro D
    unfold mean_epoch_loss
    have : (step_losses.map (fun l => ((B : ℚ) / (D : ℚ)) * l)).sum =
        ((B : ℚ) / (D : ℚ)) * step_losses.sum := sum_map_mul_left_q _ _
    rw [this]
    ring

/-- Embedding of the per-epoch checkpoint logic of `fit`
(src/train_irl_nn.py:124 and 212-218): starting from `best_loss = 1e10`,
after each epoch, if `best_loss > mean_epoch_loss` the best loss becomes
this epoch's loss and the model state is saved. The trace records, per
epoch, the best loss after the epoch and whether a checkpoint was written. -/
def checkpointRun : ℚ → List ℚ → List (ℚ × Bool)
  | _, [] => []
  | best, l :: rest =>
      if best > l then (l, true) :: checkpointRun l rest
      else (best, false) :: checkpointRun best rest

/-- Running best loss obtained by folding the observed epoch losses into an
initial best value, mirroring the update `best_loss = mean_epoch_loss`. -/
def bestFold (b : ℚ) (ls : List ℚ) : ℚ :=
  ls.foldl (fun best l => if best > l then l else best) b

theorem checkpointRun_spec : ∀ (ls : List ℚ) (b : ℚ) (k : ℕ),
    k < ls.length →
    (((checkpointRun b ls).getD k (0, false)).2 = true ↔
      ls.getD k 0 < bestFold b (ls.take k))
    ∧ ((checkpointRun b ls).getD k (0, false)).1 = bestFold b (ls.take (k + 1))
    ∧ bestFold b (ls.take (k + 1)) ≤ bestFold b (ls.take k)
  | [], _, k, hk => absurd hk (by simp)
  | l :: rest, b, 0, _ => by
      by_cases hbl : b > l
      · refine ⟨by simp [checkpointRun, hbl, bestFold], ?_, ?_⟩
        · simp [checkpointRun, hbl, bestFold]
        · simp [bestFold, hbl]
          linarith
      · refine ⟨by simp [checkpointRun, hbl, bestFold], ?_, ?_⟩
        · simp [checkpointRun, hbl, bestFold]
        · simp [bestFold, hbl]
  | l :: rest, b, k + 1, hk => by
      have hk2 : k < rest.length := by
        simpa using hk
      have ih := checkpointRun_spec rest (if b > l then l else b) k hk2
      by_cases hbl : b > l
      · simpa [checkpointRun, hbl, bestFold, List.take_succ_cons] using ih
      · simpa [checkpointRun, hbl, bestFold, List.take_succ_cons] using ih

/-- C9 counterexample. The initial best loss is the literal `1e10`, which is
not above every realizable epoch loss: with a first epoch loss of `2e10`,
no checkpoint is written for the first epoch even though it strictly
improves on every loss seen before it. -/
theorem irl_C9_counterexample :
    ((checkpointRun (10 ^ 10 : ℚ) [2 * 10 ^ 10]).getD 0 (0, false)).2
      = false := by
  norm_num [checkpointRun]

/-- C9 (amended). With the best loss initialized to the literal `1e10`, a
checkpoint is written after epoch `k` if and only if that epoch's mean loss
is strictly below the best value seen so far (the minimum of `1e10` and the
previous epoch losses); at that moment the best value becomes the new loss;
and the best value never increases from one epoch to the next. -/
theorem irl_C9_checkpointing (losses : List ℚ) (k : ℕ)
    (hk : k < losses.length) :
    (((checkpointRun (10 ^ 10 : ℚ) losses).getD k (0, false)).2 = true ↔
      losses.getD k 0 < bestFold (10 ^ 10 : ℚ) (losses.take k))
    ∧ ((checkpointRun (10 ^ 10 : ℚ) losses).getD k (0, false)).1 =
        bestFold (10 ^ 10 : ℚ) (losses.take (k + 1))
    ∧ bestFold (10 ^ 10 : ℚ) (losses.take (k + 1)) ≤
        bestFold (10 ^ 10 : ℚ) (losses.take k) :=
  checkpointRun_spec losses (10 ^ 10 : ℚ) k hk

/-- Closed witness for C9 on the loss trace `[2, 3, 1]`. -/
theorem irl_C9_checkpointing_witness :
    bestFold (10 ^ 10 : ℚ) ([2, 3, 1].take (1 + 1)) ≤
      bestFold (10 ^ 10 : ℚ) ([2, 3, 1].take 1) :=
  (irl_C9_checkpointing [2, 3, 1] 1 (by norm_num)).2.2
